import Mathlib

/-!
# Verification of the async-iterable combinator library

Shallow embedding of the combinators of `src/index.ts`
(softwareventures/async-iterable).  An asynchronous sequence is embedded as
the `List` of the elements it yields, in order; each list element consumed by
a loop stands for one pull on the source cursor, and reaching the end of the
list stands for the pull that reports exhaustion.  Thrown errors are embedded
as `Except.error` carrying the message string of the source; user callbacks
become pure Lean functions; JavaScript numbers that only ever hold counters
are embedded as `Nat`, general numeric arguments as `Int` or, where
non-integer and non-finite values matter, as the dedicated `JSNumber` type.
-/

set_option autoImplicit false

namespace AsyncIterable

universe u v

variable {α : Type u}

/-- `toArray` (src/index.ts, lines 27-33) collects every element of the
sequence in order.  In the list embedding a sequence already is the ordered
list of its elements, so `toArray` is the identity. -/
def toArray (l : List α) : List α := l

/-- Loop of `take` (src/index.ts, lines 158-165).  `i` is the value of the
counter before the `++i` of the current iteration.  The first component is
the list of yielded elements, the second the number of pulls issued on the
source when the output is fully drained: one pull per element entered into
the loop body, plus one final pull when the loop ends by source exhaustion
(the `[]` case), but no further pull when `++i >= c` stops the loop. -/
def takeAux (c : Int) (i : Nat) : List α → List α × Nat
  | [] => ([], 1)
  | x :: rest =>
    if (i + 1 : Int) ≥ c then ([x], 1)
    else
      let r := takeAux c (i + 1) rest
      (x :: r.1, r.2 + 1)

/-- `take` (src/index.ts, lines 149-166): when the awaited count is `0` it
returns at once, issuing no pull; otherwise it runs the yield loop.  Returns
the yielded elements and the number of pulls issued on the source. -/
def take (c : Int) (l : List α) : List α × Nat :=
  if c = 0 then ([], 0) else takeAux c 0 l

/-- Skip loop of `drop` (src/index.ts, lines 184-187): the head of the list
is the element held in `result`; while `i < c` and the source is not
exhausted it is discarded and the next element pulled.  The remaining
elements are then forwarded unchanged (lines 189-192). -/
def dropAux (c : Int) (i : Int) : List α → List α
  | [] => []
  | x :: rest => if i < c then dropAux c (i + 1) rest else x :: rest

/-- `drop` (src/index.ts, lines 178-193). -/
def drop (c : Int) (l : List α) : List α := dropAux c 0 l

/-- `only` (src/index.ts, lines 128-133): pull once; if exhausted return
none; otherwise pull again and return the first value only if the second
pull reports exhaustion. -/
def only (l : List α) : Option α :=
  match l with
  | [] => none
  | x :: rest =>
    match rest with
    | [] => some x
    | _ :: _ => none

/-- Main loop of `excludeFirst` (src/index.ts, lines 474-480): forward
elements while the predicate fails, indices starting at `i`; on the first
match the matching element is dropped and the remainder of the source is
forwarded unchanged (lines 482-489). -/
def excludeFirstAux (p : α → Nat → Bool) (i : Nat) : List α → List α
  | [] => []
  | x :: rest => if p x i then rest else x :: excludeFirstAux p (i + 1) rest

/-- `excludeFirst` (src/index.ts, lines 467-490). -/
def excludeFirst (p : α → Nat → Bool) (l : List α) : List α :=
  excludeFirstAux p 0 l

/-- `equal` (src/index.ts, lines 301-322): walk both sequences in lockstep;
return false on the first unequal pair; once a sequence is exhausted, return
whether both are exhausted. -/
def equal (eq : α → α → Bool) : List α → List α → Bool
  | [], [] => true
  | [], _ :: _ => false
  | _ :: _, [] => false
  | a :: as, b :: bs => if eq a b then equal eq as bs else false

/-- Accumulation loop of `fold1` (src/index.ts, lines 562-567): `i` is the
value of the counter before the `i++` of the current iteration. -/
def fold1Aux (f : α → α → Nat → α) (acc : α) (i : Nat) : List α → α
  | [] => acc
  | x :: rest => fold1Aux f (f acc x i) (i + 1) rest

/-- `fold1` (src/index.ts, lines 550-570): throws `TypeError` with message
`fold1: empty AsyncIterable` on an empty sequence; otherwise seeds the
accumulator from the first element and folds the rest with the counter
starting at 1. -/
def fold1 (f : α → α → Nat → α) : List α → Except String α
  | [] => .error "fold1: empty AsyncIterable"
  | x :: rest => .ok (fold1Aux f x 1 rest)

/-- A JavaScript number as far as `index` inspects it: a finite value
(embedded as a rational), one of the two infinities, or NaN. -/
inductive JSNumber : Type where
  | finite (q : ℚ)
  | posInf
  | negInf
  | nan
deriving DecidableEq

/-- The test `index < 0` of src/index.ts line 583 (JS: `NaN < 0` and
`Infinity < 0` are false, `-Infinity < 0` is true). -/
def jsLtZero : JSNumber → Bool
  | .finite q => decide (q < 0)
  | .posInf => false
  | .negInf => true
  | .nan => false

/-- The test `isFinite(index)` of src/index.ts line 583. -/
def jsIsFinite : JSNumber → Bool
  | .finite _ => true
  | _ => false

/-- The test `Math.floor(index) !== index` of src/index.ts line 583
(JS: `Math.floor` fixes the infinities, and `NaN !== NaN` is true). -/
def jsFloorNeSelf : JSNumber → Bool
  | .finite q => !decide ((⌊q⌋ : ℚ) = q)
  | .posInf => false
  | .negInf => false
  | .nan => true

/-- The strict equality `i === index` of src/index.ts line 589, comparing
the `Nat` loop counter with the JavaScript number argument. -/
def jsEqNat (i : Nat) : JSNumber → Bool
  | .finite q => decide ((i : ℚ) = q)
  | _ => false

/-- Search loop of `index` (src/index.ts, lines 587-593): `i` is the value
of the counter before the `i++` of the current iteration. -/
def indexLoop (n : JSNumber) : Nat → List α → Option α
  | _, [] => none
  | i, x :: rest => if jsEqNat i n then some x else indexLoop n (i + 1) rest

/-- `index` (src/index.ts, lines 582-594): throws `RangeError` with message
`illegal index` when the position is negative, non-finite or non-integer,
before the source is touched; otherwise scans for the element at that
position, returning none past the end. -/
def index (l : List α) (n : JSNumber) : Except String (Option α) :=
  if jsLtZero n || !jsIsFinite n || jsFloorNeSelf n then .error "illegal index"
  else .ok (indexLoop n 0 l)

/-- Scan loop of `internalMaximum` (src/index.ts, lines 736-741): replace
the running extremum exactly when the comparator says the new element is
strictly greater. -/
def maxAux (compare : α → α → Int) (m : α) : List α → α
  | [] => m
  | v :: rest =>
    if compare v m > 0 then maxAux compare v rest else maxAux compare m rest

/-- `internalMaximum` (src/index.ts, lines 723-744): none on an empty
sequence, otherwise seed the running extremum from the first element and
scan the rest. -/
def internalMaximum (compare : α → α → Int) : List α → Option α
  | [] => none
  | x :: rest => some (maxAux compare x rest)

/-- `maximum` (src/index.ts, lines 708-713) with an explicit comparator. -/
def maximum (compare : α → α → Int) (l : List α) : Option α :=
  internalMaximum compare l

/-- Modelled from the spec: the comparator-flipping `reverse` of the
`@softwareventures/ordered` dependency (not part of this repository), used
by `minimum` so that it tracks the running minimal element with a strict
comparison, retaining the first occurrence on ties. -/
def reverse (compare : α → α → Int) : α → α → Int :=
  fun a b => compare b a

/-- `minimum` (src/index.ts, lines 791-799) with an explicit comparator:
`internalMaximum` under the reversed comparator. -/
def minimum (compare : α → α → Int) (l : List α) : Option α :=
  internalMaximum (reverse compare) l

/-- Scan loop of `maximumBy` (src/index.ts, lines 761-769), instrumented
with the trace of `(element, index)` arguments passed to the selector.  `i`
is the value of the counter before the `i++` of the current iteration; note
the source initialises it to `0` (line 759) although the first element was
already given index `0` (line 758). -/
def maximumByAux (select : α → Nat → Int) (m : α) (mBy : Int) (i : Nat) :
    List α → α × List (α × Nat)
  | [] => (m, [])
  | v :: rest =>
    let b := select v i
    let r :=
      if b > mBy then maximumByAux select v b (i + 1) rest
      else maximumByAux select m mBy (i + 1) rest
    (r.1, (v, i) :: r.2)

/-- `maximumBy` (src/index.ts, lines 746-772), instrumented with the trace
of `(element, index)` arguments passed to the selector, in call order. -/
def maximumBy (select : α → Nat → Int) : List α → Option (α × List (α × Nat))
  | [] => none
  | x :: rest =>
    let mBy := select x 0
    let r := maximumByAux select x mBy 0 rest
    some (r.1, (x, 0) :: r.2)

/-- `minimumBy` (src/index.ts, lines 811-816): `maximumBy` of the negated
selector, so the selector receives exactly the indices `maximumBy` passes. -/
def minimumBy (select : α → Nat → Int) (l : List α) : Option (α × List (α × Nat)) :=
  maximumBy (fun e i => -(select e i)) l

/-! ## Lemmas about `take` and `drop` -/

theorem takeAux_pulls_le (l : List α) : ∀ (c : Int) (i : Nat),
    (i : Int) < c → ((takeAux c i l).2 : Int) ≤ c - i := by
  induction l with
  | nil =>
    intro c i h
    simp only [takeAux]
    omega
  | cons x rest ih =>
    intro c i h
    by_cases hc : ((i : Int) + 1) ≥ c
    · simp only [takeAux, if_pos hc]
      omega
    · simp only [takeAux, if_neg hc]
      have := ih c (i + 1) (by push_cast; omega)
      push_cast at this ⊢
      omega

theorem takeAux_fst_eq_take (l : List α) : ∀ (c : Int) (i : Nat),
    (i : Int) < c → (takeAux c i l).1 = l.take (c - i).toNat := by
  induction l with
  | nil =>
    intro c i h
    simp [takeAux]
  | cons x rest ih =>
    intro c i h
    by_cases hc : ((i : Int) + 1) ≥ c
    · have h1 : (c - i).toNat = 1 := by omega
      simp [takeAux, if_pos hc, h1]
    · have h1 : (c - i).toNat = (c - ((i : Int) + 1)).toNat + 1 := by omega
      simp only [takeAux, if_neg hc]
      rw [h1, List.take_succ_cons]
      have := ih c (i + 1) (by push_cast; omega)
      push_cast at this
      rw [this]

theorem take_fst_eq_take (k : Nat) (l : List α) : (take (k : Int) l).1 = l.take k := by
  by_cases hk : k = 0
  · subst hk; simp [take]
  · rw [take, if_neg (by exact_mod_cast hk)]
    rw [takeAux_fst_eq_take l (k : Int) 0 (by omega)]
    simp

theorem dropAux_eq_drop (l : List α) : ∀ (c i : Int),
    dropAux c i l = l.drop (c - i).toNat := by
  induction l with
  | nil =>
    intro c i
    simp [dropAux]
  | cons x rest ih =>
    intro c i
    by_cases h : i < c
    · have h1 : (c - i).toNat = (c - (i + 1)).toNat + 1 := by omega
      simp only [dropAux, if_pos h]
      rw [ih c (i + 1), h1, List.drop_succ_cons]
    · have h1 : (c - i).toNat = 0 := by omega
      simp [dropAux, if_neg h, h1]

theorem drop_eq_drop (k : Nat) (l : List α) : drop (k : Int) l = l.drop k := by
  rw [drop, dropAux_eq_drop]
  simp

/-! ## Claims about `take` and `drop` -/

/-- C2: for every sequence `l` and non-negative count `k`, `take` issues at
most `k` pulls on the source even when its output is fully drained, and
`take l 0` yields nothing and issues no pull at all. -/
theorem c2_take_lazy (k : Nat) (l : List α) :
    (take (k : Int) l).2 ≤ k ∧ take (0 : Int) l = ([], 0) := by
  constructor
  · by_cases hk : k = 0
    · subst hk; simp [take]
    · rw [take, if_neg (by exact_mod_cast hk)]
      have := takeAux_pulls_le l (k : Int) 0 (by omega)
      omega
  · simp [take]

/-- C3: for every sequence `l` of length `n` and count `k ≥ 0`,
`toArray (take l k)` has length `min k n`, `toArray (drop l k)` has length
`n - k` (truncated at zero), and their concatenation is `toArray l`. -/
theorem c3_take_drop_decompose (k : Nat) (l : List α) :
    (toArray (take (k : Int) l).1).length = min k (toArray l).length ∧
    (toArray (drop (k : Int) l)).length = (toArray l).length - k ∧
    toArray (take (k : Int) l).1 ++ toArray (drop (k : Int) l) = toArray l := by
  refine ⟨?_, ?_, ?_⟩ <;>
    simp [toArray, take_fst_eq_take, drop_eq_drop, List.length_take, List.length_drop,
      List.take_append_drop]

/-- C10: for every negative count `c`, `take l c` yields exactly the first
element of `l` when `l` is non-empty, and nothing when `l` is empty (no
error is possible: the generator body contains no throw). -/
theorem c10_take_negative (c : Int) (h : c < 0) (l : List α) :
    (take c l).1 = l.take 1 := by
  rw [take, if_neg (by omega)]
  cases l with
  | nil => simp [takeAux]
  | cons x rest =>
    rw [takeAux, if_pos (by push_cast; omega)]
    simp

/-- Witness for C10 at the concrete count `-1` and sequence `[5, 6]`. -/
theorem c10_witness : (-1 : Int) < 0 ∧ (take (-1 : Int) ([5, 6] : List Int)).1 = [5] := by
  refine ⟨by norm_num, ?_⟩
  have h := c10_take_negative (-1 : Int) (by norm_num) ([5, 6] : List Int)
  simpa using h

/-! ## Claim about `only` -/

/-- C6: `only` returns the sole element exactly when the sequence has length
one, and returns none otherwise, both for the empty sequence and for any
sequence of two or more elements. -/
theorem c6_only_spec (l : List α) :
    (∀ x : α, only l = some x ↔ l = [x]) ∧ (only l = none ↔ l.length ≠ 1) := by
  rcases l with _ | ⟨x, _ | ⟨y, t⟩⟩ <;> simp [only]

/-- Witness for C6 at the singleton sequence `[4]`. -/
theorem c6_witness : only ([4] : List Int) = some 4 :=
  ((c6_only_spec ([4] : List Int)).1 4).mpr rfl

/-! ## Claim about `equal` -/

/-- C5: `equal` returns true exactly when the two sequences have the same
length and every corresponding pair of elements compares equal under the
element equality; in particular it returns false whenever the lengths
differ. -/
theorem c5_equal_spec (eq : α → α → Bool) (a b : List α) :
    equal eq a b = true ↔
      a.length = b.length ∧
        ∀ (i : Nat) (ha : i < a.length) (hb : i < b.length),
          eq (a.get ⟨i, ha⟩) (b.get ⟨i, hb⟩) = true := by
  induction a generalizing b with
  | nil =>
    cases b with
    | nil => simp [equal]
    | cons y bs => simp [equal]
  | cons x as ih =>
    cases b with
    | nil => simp [equal]
    | cons y bs =>
      rw [equal]
      by_cases h : eq x y = true
      · rw [if_pos h, ih bs]
        constructor
        · rintro ⟨hlen, hget⟩
          refine ⟨by simpa using hlen, ?_⟩
          intro i ha hb
          cases i with
          | zero => simpa using h
          | succ j => simpa using hget j (by simpa using ha) (by simpa using hb)
        · rintro ⟨hlen, hget⟩
          refine ⟨by simpa using hlen, ?_⟩
          intro j hj hj2
          simpa using hget (j + 1) (by simpa using hj) (by simpa using hj2)
      · rw [if_neg h]
        constructor
        · intro hfalse
          cases hfalse
        · rintro ⟨hlen, hget⟩
          exact absurd (by simpa using hget 0 (by simp) (by simp)) h

/-- Witness for C5 at two equal two-element integer sequences. -/
theorem c5_witness : equal (fun a b : Int => a == b) [1, 2] [1, 2] = true :=
  (c5_equal_spec (fun a b : Int => a == b) [1, 2] [1, 2]).mpr
    ⟨rfl, by
      intro i ha hb
      norm_num at ha
      interval_cases i <;> rfl⟩

/-! ## Claim about `fold1` -/

theorem fold1Aux_eq_foldl_enumFrom (f : α → α → Nat → α) :
    ∀ (l : List α) (acc : α) (i : Nat),
      fold1Aux f acc i l = (List.enumFrom i l).foldl (fun a ei => f a ei.2 ei.1) acc := by
  intro l
  induction l with
  | nil => intro acc i; rfl
  | cons x rest ih =>
    intro acc i
    rw [fold1Aux, List.enumFrom_cons, List.foldl_cons]
    exact ih (f acc x i) (i + 1)

/-- C7: `fold1` fails with the empty-sequence error exactly when the
sequence yields no elements, never falling back to a default; on a
non-empty sequence it seeds the accumulator from the first element and
folds the rest with the index counter starting at 1; and the spec's
concrete example `fold1 [1, 2, 3] (a + e * i)` evaluates to 9. -/
theorem c7_fold1_spec :
    (∀ (γ : Type u) (f : γ → γ → Nat → γ) (l : List γ),
        fold1 f l = .error "fold1: empty AsyncIterable" ↔ l = []) ∧
    (∀ (γ : Type u) (f : γ → γ → Nat → γ) (x : γ) (rest : List γ),
        fold1 f (x :: rest) =
          .ok ((List.enumFrom 1 rest).foldl (fun a ei => f a ei.2 ei.1) x)) ∧
    fold1 (fun a e i => a + e * (i : Int)) [1, 2, 3] = .ok 9 := by
  refine ⟨?_, ?_, ?_⟩
  · intro γ f l
    cases l with
    | nil => simp [fold1]
    | cons x rest => simp [fold1]
  · intro γ f x rest
    rw [fold1]
    exact congrArg Except.ok (fold1Aux_eq_foldl_enumFrom f rest x 1)
  · rfl

/-- Witness for C7: the spec's concrete example. -/
theorem c7_witness : fold1 (fun a e i => a + e * (i : Int)) [1, 2, 3] = .ok 9 :=
  c7_fold1_spec.{0}.2.2

/-! ## Claim about the index counter of `maximumBy` / `minimumBy` -/

/-- C1: refuted by the code as shipped.  `maximumBy` passes index 0 to the
first element (src/index.ts line 758) but then initialises its counter to 0
(line 759), so the second element is also passed index 0 and the k-th
element (k ≥ 1) is passed index k-1.  With a selector returning its index
argument, the two-element sequence `[10, 20]` produces the selector call
trace `[(10, 0), (20, 0)]` — the claim requires `[(10, 0), (20, 1)]`.  The
sibling `fold1` and `scan1` loops initialise the same counter to 1, and the
spec requires indices to increment once per element visited, so the claim
states the intent and the code has an off-by-one slip.  `minimumBy`
delegates to `maximumBy` and inherits the same trace. -/
theorem c1_maximumBy_second_element_gets_index_zero :
    maximumBy (fun (_ : Int) (i : Nat) => (i : Int)) [10, 20] =
      some (10, [(10, 0), (20, 0)]) ∧
    minimumBy (fun (_ : Int) (i : Nat) => (i : Int)) [10, 20] =
      some (10, [(10, 0), (20, 0)]) := by
  constructor <;> rfl

/-! ## Claim about `excludeFirst` -/

theorem excludeFirstAux_eq (p : α → Nat → Bool) :
    ∀ (l : List α) (i : Nat),
      excludeFirstAux p i l =
        match (List.enumFrom i l).find? (fun xi => p xi.2 xi.1) with
        | none => l
        | some xi => l.eraseIdx (xi.1 - i) := by
  intro l
  induction l with
  | nil => intro i; rfl
  | cons x rest ih =>
    intro i
    rw [excludeFirstAux, List.enumFrom_cons]
    by_cases h : p x i
    · rw [if_pos h, List.find?_cons_of_pos _ (by simpa using h)]
      simp
    · rw [if_neg h, List.find?_cons_of_neg _ (by simpa using h), ih (i + 1)]
      cases hfind : (List.enumFrom (i + 1) rest).find? (fun xi => p xi.2 xi.1) with
      | none => rfl
      | some xi =>
        have hmem := List.mem_of_find?_eq_some hfind
        have hge : i + 1 ≤ xi.1 := by
          rcases xi with ⟨k, y⟩
          exact (List.mk_mem_enumFrom_iff_le_and_getElem?_sub.mp hmem).1
        have hsub : xi.1 - i = (xi.1 - (i + 1)) + 1 := by omega
        simp only [hsub]
        rfl

/-- C4: `toArray (excludeFirst l p)` is `toArray l` with exactly the first
element satisfying the predicate removed (`eraseIdx` at the position of the
first match, found by scanning the elements paired with their zero-based
indices); when no element matches, the output equals the input. -/
theorem c4_excludeFirst_spec (p : α → Nat → Bool) (l : List α) :
    toArray (excludeFirst p l) =
      match l.enum.find? (fun xi => p xi.2 xi.1) with
      | none => toArray l
      | some xi => (toArray l).eraseIdx xi.1 := by
  simp only [toArray]
  rw [excludeFirst, excludeFirstAux_eq]
  have henum : l.enum = List.enumFrom 0 l := rfl
  rw [henum]
  cases hfind : (List.enumFrom 0 l).find? (fun xi => p xi.2 xi.1) with
  | none => rfl
  | some xi => simp

/-! ## Claim about `index` -/

theorem indexLoop_nat_eq_get? (k : Nat) :
    ∀ (l : List α) (i : Nat), i ≤ k →
      indexLoop (.finite (k : ℚ)) i l = l.get? (k - i) := by
  intro l
  induction l with
  | nil => intro i h; rfl
  | cons x rest ih =>
    intro i h
    rw [indexLoop]
    by_cases hik : i = k
    · subst hik
      rw [if_pos (by simp [jsEqNat])]
      simp
    · have hlt : i < k := lt_of_le_of_ne h hik
      rw [if_neg (by simp only [jsEqNat, decide_eq_true_eq, Nat.cast_inj]; exact hik)]
      rw [ih (i + 1) hlt]
      have hsub : k - i = (k - (i + 1)) + 1 := by omega
      rw [hsub, List.get?_cons_succ]

/-- C8: `index` fails with the invalid-index error, without inspecting the
sequence (the result is the same for every sequence), exactly when the
position is a negative finite value, a finite non-integer, an infinity or
NaN; on a non-negative integer position `k` it returns the element at
zero-based position `k`, which is none when the sequence has `k` or fewer
elements. -/
theorem c8_index_spec :
    (∀ (γ : Type u) (l : List γ) (q : ℚ),
        q < 0 ∨ ¬(∃ k : Nat, (k : ℚ) = q) →
          index l (.finite q) = .error "illegal index") ∧
    (∀ (γ : Type u) (l : List γ),
        index l .posInf = .error "illegal index" ∧
        index l .negInf = .error "illegal index" ∧
        index l .nan = .error "illegal index") ∧
    (∀ (γ : Type u) (l : List γ) (k : Nat),
        index l (.finite (k : ℚ)) = .ok (l.get? k)) := by
  refine ⟨?_, ?_, ?_⟩
  · intro γ l q hq
    by_cases hneg : q < 0
    · simp [index, jsLtZero, hneg]
    · rcases hq with hneg2 | hni
      · exact absurd hneg2 hneg
      · have hfl : ¬((⌊q⌋ : ℚ) = q) := by
          intro heq
          apply hni
          refine ⟨⌊q⌋.toNat, ?_⟩
          have hq0 : (0 : ℚ) ≤ q := le_of_not_lt hneg
          have hfl0 : (0 : Int) ≤ ⌊q⌋ := Int.floor_nonneg.mpr hq0
          rw [← heq]
          exact_mod_cast congrArg (fun z : Int => (z : ℚ)) (Int.toNat_of_nonneg hfl0)
        simp [index, jsLtZero, jsIsFinite, jsFloorNeSelf, hneg, hfl]
  · intro γ l
    exact ⟨rfl, rfl, rfl⟩
  · intro γ l k
    have h1 : jsLtZero (.finite (k : ℚ)) = false := by
      simp [jsLtZero]
    have h2 : jsFloorNeSelf (.finite (k : ℚ)) = false := by
      simp [jsFloorNeSelf]
    rw [index]
    rw [if_neg (by simp [h1, h2, jsIsFinite])]
    rw [indexLoop_nat_eq_get? k l 0 (Nat.zero_le k)]
    rw [Nat.sub_zero]

/-- Witness for C8: a negative position fails for every sequence, and
position 1 of `[7, 8]` is `8`. -/
theorem c8_witness :
    index ([7, 8] : List Int) (.finite (-1 : ℚ)) = .error "illegal index" ∧
    index ([7, 8] : List Int) (.finite ((1 : Nat) : ℚ)) = .ok (some 8) := by
  constructor
  · exact c8_index_spec.1 Int [7, 8] (-1) (Or.inl (by norm_num))
  · have h := c8_index_spec.2.2 Int [7, 8] 1
    simpa using h

/-! ## Claim about `maximum` and `minimum`

The comparator hypothesis states that the comparator is induced by a key
function into some linear order (equivalently, that the strict relation
`compare a b > 0` is a lawful total-preorder comparison); every lawful
comparator arises this way. -/

theorem maxAux_spec {β : Type v} [LinearOrder β] (compare : α → α → Int) (f : α → β)
    (hc : ∀ a b, compare a b > 0 ↔ f a > f b) :
    ∀ (rest : List α) (m : α),
      maxAux compare m rest ∈ m :: rest ∧
      (∀ y ∈ m :: rest, f y ≤ f (maxAux compare m rest)) ∧
      ∃ l₁ l₂, m :: rest = l₁ ++ maxAux compare m rest :: l₂ ∧
        ∀ y ∈ l₁, f y < f (maxAux compare m rest) := by
  intro rest
  induction rest with
  | nil =>
    intro m
    refine ⟨by simp [maxAux], ?_, [], [], by simp [maxAux], by simp⟩
    intro y hy
    rw [List.mem_singleton] at hy
    subst hy
    exact le_refl _
  | cons v t ih =>
    intro m
    by_cases hvm : compare v m > 0
    · have hlt : f m < f v := (hc v m).mp hvm
      obtain ⟨hmem, hbd, l₁, l₂, hdec, hpre⟩ := ih v
      rw [maxAux, if_pos hvm]
      refine ⟨List.mem_cons_of_mem m hmem, ?_, m :: l₁, l₂, ?_, ?_⟩
      · intro y hy
        rcases List.mem_cons.mp hy with hym | hyt
        · subst hym
          exact le_of_lt (lt_of_lt_of_le hlt (hbd v (List.mem_cons_self v t)))
        · exact hbd y hyt
      · rw [List.cons_append, ← hdec]
      · intro y hy
        rcases List.mem_cons.mp hy with hym | hyl
        · subst hym
          exact lt_of_lt_of_le hlt (hbd v (List.mem_cons_self v t))
        · exact hpre y hyl
    · have hle : f v ≤ f m := le_of_not_lt fun h => hvm ((hc v m).mpr h)
      obtain ⟨hmem, hbd, l₁, l₂, hdec, hpre⟩ := ih m
      rw [maxAux, if_neg hvm]
      have hbd2 : ∀ y ∈ m :: v :: t, f y ≤ f (maxAux compare m t) := by
        intro y hy
        rcases List.mem_cons.mp hy with hym | hy2
        · rw [hym]
          exact hbd m (List.mem_cons_self m t)
        · rcases List.mem_cons.mp hy2 with hyv | hyt
          · rw [hyv]
            exact le_trans hle (hbd m (List.mem_cons_self m t))
          · exact hbd y (List.mem_cons_of_mem m hyt)
      have hmem2 : maxAux compare m t ∈ m :: v :: t := by
        rcases List.mem_cons.mp hmem with hrm | hrt
        · rw [hrm]
          exact List.mem_cons_self m (v :: t)
        · exact List.mem_cons_of_mem m (List.mem_cons_of_mem v hrt)
      refine ⟨hmem2, hbd2, ?_⟩
      cases l₁ with
      | nil =>
        have hrm : m = maxAux compare m t := by
          simpa using congrArg (fun s => s.head?) hdec
        exact ⟨[], v :: t, by simpa using hrm, by simp⟩
      | cons a l₁T =>
        have hdec2 := hdec
        rw [List.cons_append] at hdec2
        have ham : a = m := by
          simpa using (congrArg (fun s => s.head?) hdec2).symm
        have htail : t = l₁T ++ maxAux compare m t :: l₂ := by
          subst ham
          simpa using congrArg (fun s => s.tail) hdec2
        have hml : f m < f (maxAux compare m t) := by
          have := hpre a (List.mem_cons_self a l₁T)
          rwa [ham] at this
        refine ⟨m :: v :: l₁T, l₂, ?_, ?_⟩
        · rw [List.cons_append, List.cons_append, ← htail]
        · intro y hy
          rcases List.mem_cons.mp hy with hym | hy2
          · rw [hym]
            exact hml
          · rcases List.mem_cons.mp hy2 with hyv | hyl
            · rw [hyv]
              exact lt_of_le_of_lt hle hml
            · exact hpre y (List.mem_cons_of_mem a hyl)

/-- C9: under any comparator induced by a key `f` into a linear order,
`maximum` (resp. `minimum`) of an empty sequence is none, and of a
non-empty sequence is an element of the sequence whose key is maximal
(resp. minimal), with every element occurring before it in the sequence
having a strictly smaller (resp. strictly larger) key — so on ties the
earliest-occurring extremal element is the one returned. -/
theorem c9_maximum_minimum_spec {β : Type v} [LinearOrder β]
    (compare : α → α → Int) (f : α → β)
    (hc : ∀ a b, compare a b > 0 ↔ f a > f b) :
    (maximum compare ([] : List α) = none ∧ minimum compare ([] : List α) = none) ∧
    (∀ (x : α) (rest : List α), ∃ m,
        maximum compare (x :: rest) = some m ∧ m ∈ x :: rest ∧
        (∀ y ∈ x :: rest, f y ≤ f m) ∧
        ∃ l₁ l₂, x :: rest = l₁ ++ m :: l₂ ∧ ∀ y ∈ l₁, f y < f m) ∧
    (∀ (x : α) (rest : List α), ∃ m,
        minimum compare (x :: rest) = some m ∧ m ∈ x :: rest ∧
        (∀ y ∈ x :: rest, f m ≤ f y) ∧
        ∃ l₁ l₂, x :: rest = l₁ ++ m :: l₂ ∧ ∀ y ∈ l₁, f m < f y) := by
  refine ⟨⟨rfl, rfl⟩, ?_, ?_⟩
  · intro x rest
    obtain ⟨hmem, hbd, l₁, l₂, hdec, hpre⟩ := maxAux_spec compare f hc rest x
    exact ⟨maxAux compare x rest, rfl, hmem, hbd, l₁, l₂, hdec, hpre⟩
  · intro x rest
    have hc2 : ∀ a b, reverse compare a b > 0 ↔
        OrderDual.toDual (f a) > OrderDual.toDual (f b) := by
      intro a b
      rw [show reverse compare a b = compare b a from rfl]
      rw [hc b a]
      constructor
      · intro h
        exact OrderDual.toDual_lt_toDual.mpr h
      · intro h
        exact OrderDual.toDual_lt_toDual.mp h
    obtain ⟨hmem, hbd, l₁, l₂, hdec, hpre⟩ :=
      maxAux_spec (reverse compare) (fun a => OrderDual.toDual (f a)) hc2 rest x
    refine ⟨maxAux (reverse compare) x rest, rfl, hmem, ?_, l₁, l₂, hdec, ?_⟩
    · intro y hy
      exact OrderDual.toDual_le_toDual.mp (hbd y hy)
    · intro y hy
      exact OrderDual.toDual_lt_toDual.mp (hpre y hy)

/-- Witness for C9: the comparator `a - b` on the integers is induced by the
identity key; over `[1, 3, 3, 2]` the returned maximum is an element of the
sequence, is an upper bound of it, and is preceded only by strictly smaller
elements. -/
theorem c9_witness :
    ∃ m, maximum (fun a b : Int => a - b) [1, 3, 3, 2] = some m ∧
      m ∈ ([1, 3, 3, 2] : List Int) ∧
      (∀ y ∈ ([1, 3, 3, 2] : List Int), id y ≤ id m) ∧
      ∃ l₁ l₂, ([1, 3, 3, 2] : List Int) = l₁ ++ m :: l₂ ∧ ∀ y ∈ l₁, id y < id m :=
  (c9_maximum_minimum_spec (fun a b : Int => a - b) (id : Int → Int)
    (by intro a b; simp only [id, gt_iff_lt]; omega)).2.1 1 [3, 3, 2]

end AsyncIterable
